import Mathlib

/-!
Verification of the path model and suffix index of the sphinx-js analyzer.

The Python sources verified here are `sphinx_js/analyzer_utils.py`
(`is_explicitly_rooted`, `dotted_path`) and `sphinx_js/typedoc.py`
(`Analyzer.__init__`, `Analyzer.get_object`, `Analyzer._get_toplevel_objects`,
`Analyzer._create_modules`).  The `sphinx_js.suffix_tree` and `sphinx_js.ir`
modules are not part of the sources at hand; the definitions that stand for
them are modelled from the specification and are marked as such.
-/

namespace SphinxJs

/-! ## Generic list helpers (shallow embedding of Python string primitives) -/

/-- Embedding of Python `s.startswith(p)` at the level of element lists:
`startsWithL l p` is true when `p` is an initial run of `l`. -/
def startsWithL {α : Type} [DecidableEq α] : List α → List α → Bool
  | _, [] => true
  | [], _ :: _ => false
  | x :: xs, y :: ys => decide (x = y) && startsWithL xs ys

/-- Characterisation of `startsWithL`: it answers whether the whole list is
the candidate initial run followed by some remainder. -/
theorem startsWithL_iff {α : Type} [DecidableEq α] (l p : List α) :
    startsWithL l p = true ↔ ∃ t, l = p ++ t := by
  induction p generalizing l with
  | nil => simp [startsWithL]
  | cons y ys ih =>
    cases l with
    | nil => simp [startsWithL]
    | cons x xs =>
      simp only [startsWithL, Bool.and_eq_true, decide_eq_true_eq, ih xs]
      constructor
      · rintro ⟨rfl, t, rfl⟩
        exact ⟨t, rfl⟩
      · rintro ⟨t, ht⟩
        simp only [List.cons_append, List.cons.injEq] at ht
        exact ⟨ht.1, t, ht.2⟩

/-- Embedding of a trailing-run test on lists: `endsWithL l q` is true when
`q` is a contiguous run ending at the last element of `l`. -/
def endsWithL {α : Type} [DecidableEq α] (l q : List α) : Bool :=
  startsWithL l.reverse q.reverse

/-- Characterisation of `endsWithL`: it answers whether the whole list is
some front part followed by the candidate trailing run. -/
theorem endsWithL_iff {α : Type} [DecidableEq α] (l q : List α) :
    endsWithL l q = true ↔ ∃ t, l = t ++ q := by
  unfold endsWithL
  rw [startsWithL_iff]
  constructor
  · rintro ⟨t, ht⟩
    refine ⟨t.reverse, ?_⟩
    have := congrArg List.reverse ht
    simpa using this
  · rintro ⟨t, rfl⟩
    exact ⟨t.reverse, by simp⟩

/-- Embedding of Python `str.split(sep)` for a one-character separator,
acting on the character list of the string. -/
def splitChar (c : Char) : List Char → List (List Char)
  | [] => [[]]
  | x :: xs =>
    if x = c then [] :: splitChar c xs
    else
      match splitChar c xs with
      | [] => [[x]]
      | y :: ys => (x :: y) :: ys

/-- A split always produces at least one piece, like Python `str.split`. -/
theorem splitChar_ne_nil (c : Char) (l : List Char) : splitChar c l ≠ [] := by
  cases l with
  | nil => simp [splitChar]
  | cons x xs =>
    simp only [splitChar]
    split
    · simp
    · split
      · simp
      · simp

/-- Kernel-reducible lexicographic comparison on character lists, the order
Python uses to compare strings. -/
def lexLt : List Char → List Char → Bool
  | [], [] => false
  | [], _ :: _ => true
  | _ :: _, [] => false
  | a :: as, b :: bs =>
    if a < b then true
    else if b < a then false
    else lexLt as bs

/-- The boolean comparison agrees with the lexicographic order on lists. -/
theorem lexLt_iff (s t : List Char) : lexLt s t = true ↔ List.Lex (· < ·) s t := by
  induction s generalizing t with
  | nil =>
    cases t with
    | nil =>
      exact iff_of_false (by simp [lexLt]) (fun h => by cases h)
    | cons b bs =>
      exact iff_of_true rfl List.Lex.nil
  | cons a as ih =>
    cases t with
    | nil =>
      exact iff_of_false (by simp [lexLt]) (fun h => by cases h)
    | cons b bs =>
      show (if a < b then true else if b < a then false else lexLt as bs) = true ↔ _
      rcases lt_trichotomy a b with hab | rfl | hba
      · rw [if_pos hab]
        exact iff_of_true rfl (List.Lex.rel hab)
      · rw [if_neg (lt_irrefl a), if_neg (lt_irrefl a), ih bs]
        constructor
        · exact fun h => List.Lex.cons h
        · intro h
          cases h with
          | cons h' => exact h'
          | rel h' => exact absurd h' (lt_irrefl a)
      · rw [if_neg (asymm hba), if_pos hba]
        refine iff_of_false (by simp) ?_
        intro h
        cases h with
        | cons h' => exact lt_irrefl _ hba
        | rel h' => exact absurd h' (asymm hba)

/-- The boolean comparison decides the order on `String` used by the
library's lexicographic string order. -/
theorem lexLt_data_iff (s t : String) : lexLt s.data t.data = true ↔ s < t := by
  rw [lexLt_iff]
  exact (@String.lt_iff_toList_lt s t).symm

/-! ## Path model, from `sphinx_js/analyzer_utils.py` -/

/-- Embedding of Python `path.startswith(p)` on strings. -/
def str_startswith (s p : String) : Bool :=
  startsWithL s.data p.data

/-- Source translation of `analyzer_utils.is_explicitly_rooted` (lines
96-104): `path.startswith(("../", "./")) or path in ("..", ".")`. -/
def is_explicitly_rooted (path : String) : Bool :=
  (str_startswith path "../" || str_startswith path "./") ||
    (path == ".." || path == ".")

/-- Embedding of Python `".".join(tokens)`. -/
def joinDot : List String → String
  | [] => ""
  | [s] => s
  | s :: t :: rest => s ++ "." ++ joinDot (t :: rest)

/-- Embedding of Python `s[:-1]`: drop the final character of a string. -/
def str_dropLastChar (s : String) : String :=
  String.mk s.data.dropLast

/-- Source translation of `analyzer_utils.dotted_path` (lines 107-122):
`"." `-join of `[s[:-1] for s in segments[:-1] if s not in ["./", "../"]]`
with the untouched final segment appended. -/
def dotted_path (segments : List String) : String :=
  match segments with
  | [] => ""
  | s :: rest =>
    let segments_without_separators :=
      ((s :: rest).dropLast.filter
        (fun t => !(t == "./" || t == "../"))).map str_dropLastChar
    joinDot (segments_without_separators ++
      [(s :: rest).getLast (List.cons_ne_nil s rest)])

/-- Recursive restatement of the specification's `dotted-path` contract:
drop non-last relative-marker segments, strip the final character of every
other non-last segment, keep the last segment verbatim, join with dots. -/
def dotted_path_spec : List String → String
  | [] => ""
  | [s] => s
  | s :: t :: rest =>
    if s = "./" ∨ s = "../" then dotted_path_spec (t :: rest)
    else str_dropLastChar s ++ "." ++ dotted_path_spec (t :: rest)

theorem joinDot_cons (s : String) (l : List String) (h : l ≠ []) :
    joinDot (s :: l) = s ++ "." ++ joinDot l := by
  cases l with
  | nil => exact absurd rfl h
  | cons t rest => rfl

theorem dotted_path_cons_cons (s t : String) (rest : List String) :
    dotted_path (s :: t :: rest) =
      if s = "./" ∨ s = "../" then dotted_path (t :: rest)
      else str_dropLastChar s ++ "." ++ dotted_path (t :: rest) := by
  by_cases hs : s = "./" ∨ s = "../"
  · have hb : (fun u => !(u == "./" || u == "../")) s = false := by
      rcases hs with rfl | rfl <;> rfl
    rw [if_pos hs]
    simp only [dotted_path, List.dropLast_cons₂, List.filter_cons, hb,
      Bool.false_eq_true, if_false,
      List.getLast_cons (List.cons_ne_nil t rest)]
  · have h1 : s ≠ "./" := fun h => hs (Or.inl h)
    have h2 : s ≠ "../" := fun h => hs (Or.inr h)
    have hb : (fun u => !(u == "./" || u == "../")) s = true := by
      simp [h1, h2]
    rw [if_neg hs]
    simp only [dotted_path, List.dropLast_cons₂, List.filter_cons, hb, if_true,
      List.map_cons, List.cons_append,
      List.getLast_cons (List.cons_ne_nil t rest)]
    rw [joinDot_cons _ _ (by simp)]

theorem dotted_path_eq_spec (segments : List String) :
    dotted_path segments = dotted_path_spec segments := by
  induction segments with
  | nil => rfl
  | cons s rest ih =>
    cases rest with
    | nil => rfl
    | cons t rest' =>
      rw [dotted_path_cons_cons, dotted_path_spec, ih]

/-! ## Suffix index, modelled from the spec -/

/-- Result of a suffix-index query: the unique payload, or one of the two
failure kinds `NotFound` / `Ambiguous` (the latter carrying the conflicting
full paths). -/
inductive LookupResult (α : Type) where
  | found (payload : α)
  | notFound
  | ambiguous (paths : List (List String))
deriving DecidableEq

/-- Modelled from the spec: the `SuffixTree` container of the module
`sphinx_js.suffix_tree`, which is not among the sources at hand.  Per
spec section 4.2 it ingests `(path, payload)` entries; the reverse-keyed
tree it builds is an optimisation whose observable content is exactly the
entry collection, so the model stores the entries themselves. -/
structure SuffixTree (α : Type) where
  entries : List (List String × α)
deriving DecidableEq

/-- Modelled from the spec: `SuffixTree.add_many` bulk-loads a batch of
`(path, payload)` entries into the index. -/
def SuffixTree.add_many {α : Type} (t : SuffixTree α) (es : List (List String × α)) :
    SuffixTree α :=
  ⟨t.entries ++ es⟩

/-- Modelled from the spec: `SuffixTree.get` walks the reverse-keyed tree
along the reversed suffix; the entries recorded at the landed node are
exactly those whose full path ends with the queried suffix.  Zero matches
fail with `NotFound`, one match returns its payload, several matches fail
with `Ambiguous` carrying the conflicting full paths. -/
def SuffixTree.get {α : Type} (t : SuffixTree α) (path_suffix : List String) :
    LookupResult α :=
  match t.entries.filter (fun e => endsWithL e.1 path_suffix) with
  | [] => .notFound
  | [e] => .found e.2
  | es => .ambiguous (es.map (fun e => e.1))

/-! ## Corpus records, modelled from the spec -/

/-- Modelled from the spec: the "kind" tag of `sphinx_js.ir` top-level
records (module `sphinx_js.ir` is not among the sources at hand), which
routes a record into one of the fixed per-module buckets. -/
inductive Kind where
  | class_
  | interface
  | function
  | attribute
  | typeAlias
deriving DecidableEq

/-- Modelled from the spec: an `ir.TopLevel` corpus record, exposing a path,
a display name, a kind tag, the appear-in-docs flag and the slash-delimited
logical file path used as grouping key.  The record itself is the payload
stored in the suffix index. -/
structure TopLevel where
  path : List String
  name : String
  kind : Kind
  documentation_root : Bool
  deppath : String
deriving DecidableEq

/-- Modelled from the spec: an `ir.Module` per-file group holding the five
buckets of included records. -/
structure Module where
  filename : String
  deppath : String
  path : List String
  line : Nat
  attributes : List TopLevel
  functions : List TopLevel
  classes : List TopLevel
  interfaces : List TopLevel
  type_aliases : List TopLevel
deriving DecidableEq

/-- The bucket of a module selected by a kind tag, following the source's
`singular_kind_to_plural_kind` dictionary. -/
def bucketOf (m : Module) : Kind → List TopLevel
  | .class_ => m.classes
  | .interface => m.interfaces
  | .function => m.functions
  | .attribute => m.attributes
  | .typeAlias => m.type_aliases

/-- Replace the bucket of a module selected by a kind tag. -/
def setBucket (m : Module) : Kind → List TopLevel → Module
  | .class_, l => { m with classes := l }
  | .interface, l => { m with interfaces := l }
  | .function, l => { m with functions := l }
  | .attribute, l => { m with attributes := l }
  | .typeAlias, l => { m with type_aliases := l }

/-- Source translation of `getattr(mod, singular_kind_to_plural_kind[kind])
.append(obj)` (typedoc.py line 188): append the object to the bucket its
kind selects. -/
def routeObj (obj : TopLevel) (m : Module) : Module :=
  setBucket m obj.kind (bucketOf m obj.kind ++ [obj])

/-- Source translation of typedoc.py lines 180-182: split the deppath on
`"/"` and re-append `"/"` to every part except the last. -/
def pathparts (path : String) : List String :=
  let parts := (splitChar '/' path.data).map String.mk
  parts.dropLast.map (fun p => p ++ "/") ++ [parts.getLastD ""]

/-- Source translation of typedoc.py lines 184-185: the fresh `ir.Module`
created the first time a deppath is seen. -/
def newModule (path : String) : Module :=
  { filename := path, deppath := path, path := pathparts path, line := 1,
    attributes := [], functions := [], classes := [], interfaces := [],
    type_aliases := [] }

/-- Source translation of `Analyzer._get_toplevel_objects` (typedoc.py
lines 158-165): keep the records whose `documentation_root` flag is set.
The source yields `(obj, obj.deppath, obj.kind)` triples; the last two
components are projections of the first, so the model keeps the records. -/
def _get_toplevel_objects (objects : List TopLevel) : List TopLevel :=
  objects.filter (fun o => o.documentation_root)

/-- Source translation of one iteration of the loop in `_create_modules`
(typedoc.py lines 179-188) over the insertion-ordered dict `modules`,
represented as an association list: create the module for the object's
deppath if absent, then route the object into the matching bucket. -/
def stepModule (mods : List (String × Module)) (obj : TopLevel) :
    List (String × Module) :=
  (if mods.any (fun p => p.1 == obj.deppath) then mods
   else mods ++ [(obj.deppath, newModule obj.deppath)]).map
    (fun p => if p.1 = obj.deppath then (p.1, routeObj obj p.2) else p)

/-- Stable insertion of a record into a name-sorted list, placing it before
the first element that is not below it; inserting earlier records last
keeps equal names in first-come order, as Python's stable `sorted` does. -/
def insertName (x : TopLevel) : List TopLevel → List TopLevel
  | [] => [x]
  | y :: ys => if lexLt y.name.data x.name.data then y :: insertName x ys
               else x :: y :: ys

/-- Source translation of `sorted(bucket, key=attrgetter("name"))`
(typedoc.py lines 190-195): a stable sort by display name. -/
def isortByName : List TopLevel → List TopLevel
  | [] => []
  | x :: xs => insertName x (isortByName xs)

/-- Source translation of the sorting loop of `_create_modules` (typedoc.py
lines 190-195): sort each of the five buckets by display name. -/
def sortModule (m : Module) : Module :=
  { m with attributes := isortByName m.attributes,
           functions := isortByName m.functions,
           classes := isortByName m.classes,
           interfaces := isortByName m.interfaces,
           type_aliases := isortByName m.type_aliases }

/-- Source translation of `Analyzer._create_modules` (typedoc.py lines
167-196): fold the included records through the dict-building loop, then
sort every bucket of every module. -/
def _create_modules (objects : List TopLevel) : List Module :=
  (((_get_toplevel_objects objects).foldl stepModule []).map
    (fun p => sortModule p.2))

/-! ## Analyzer, from `sphinx_js/typedoc.py` -/

/-- Source translation of the `as_type` argument of `Analyzer.get_object`
(typedoc.py line 136), whose annotated values are `"function"`, `"class"`
and `"attribute"`. -/
inductive AsType where
  | function
  | class_
  | attribute
deriving DecidableEq

/-- State of an `Analyzer` after `__init__`: the two suffix indexes built
from the corpus (typedoc.py lines 117-131). -/
structure Analyzer where
  objects_by_path : SuffixTree TopLevel
  modules_by_path : SuffixTree Module

/-- Source translation of `Analyzer.__init__` (typedoc.py lines 122-131):
bulk-load one suffix index with `(obj.path.segments, obj)` for every corpus
record and a second with the created modules. -/
def Analyzer.init (objects : List TopLevel) : Analyzer :=
  { objects_by_path :=
      SuffixTree.add_many ⟨[]⟩ (objects.map (fun o => (o.path, o))),
    modules_by_path :=
      SuffixTree.add_many ⟨[]⟩
        ((_create_modules objects).map (fun m => (m.path, m))) }

/-- Source translation of `Analyzer.get_object` (typedoc.py lines 133-142):
return `self._objects_by_path.get(path_suffix)`; the `as_type` argument is
ignored by the body. -/
def Analyzer.get_object (self : Analyzer) (path_suffix : List String)
    (as_type : AsType) : LookupResult TopLevel :=
  self.objects_by_path.get path_suffix

/-! ## Helper lemmas about suffix-index queries -/

theorem get_filter_nil {α : Type} (t : SuffixTree α) (s : List String)
    (h : t.entries.filter (fun e => endsWithL e.1 s) = []) :
    t.get s = LookupResult.notFound := by
  simp only [SuffixTree.get, h]

theorem get_filter_one {α : Type} (t : SuffixTree α) (s : List String)
    (x : List String × α)
    (h : t.entries.filter (fun e => endsWithL e.1 s) = [x]) :
    t.get s = LookupResult.found x.2 := by
  simp only [SuffixTree.get, h]

theorem get_filter_many {α : Type} (t : SuffixTree α) (s : List String)
    (x y : List String × α) (ys : List (List String × α))
    (h : t.entries.filter (fun e => endsWithL e.1 s) = x :: y :: ys) :
    t.get s = LookupResult.ambiguous ((x :: y :: ys).map (fun e => e.1)) := by
  simp only [SuffixTree.get, h]

/-! ## Claims about the suffix index -/

/-- C1: suffix correctness of the index behind `Analyzer.get_object`.  For
an indexed entry with path `p`, querying a non-empty suffix `s` of `p`
returns that entry's payload iff no other indexed entry's path ends with
`s`; whenever two distinct indexed entries share the queried suffix the
query fails with `Ambiguous` carrying exactly the conflicting full paths;
and the concrete ambiguity scenario of the spec behaves as stated. -/
theorem claim_C1 {α : Type} (t : SuffixTree α) (p : List String) (a : α)
    (s : List String) (hnd : t.entries.Nodup) (hmem : (p, a) ∈ t.entries)
    (hs : s ≠ []) (hsuf : ∃ u, p = u ++ s) :
    (t.get s = LookupResult.found a ↔
      ∀ e ∈ t.entries, (∃ u, e.1 = u ++ s) → e = (p, a)) ∧
    (∀ e₁ e₂, e₁ ∈ t.entries → e₂ ∈ t.entries → e₁ ≠ e₂ →
      (∃ u, e₁.1 = u ++ s) → (∃ u, e₂.1 = u ++ s) →
      ∃ ps, t.get s = LookupResult.ambiguous ps ∧
        ∀ q, q ∈ ps ↔ ∃ e ∈ t.entries, e.1 = q ∧ ∃ u, q = u ++ s) ∧
    (SuffixTree.get ⟨[(["pkg/", "A#", "run"], 0), (["pkg/", "B#", "run"], (1 : Nat))]⟩
        ["run"]
      = LookupResult.ambiguous [["pkg/", "A#", "run"], ["pkg/", "B#", "run"]] ∧
      SuffixTree.get ⟨[(["pkg/", "A#", "run"], 0), (["pkg/", "B#", "run"], (1 : Nat))]⟩
        ["A#", "run"]
      = LookupResult.found 0) := by
  have hpaF : (p, a) ∈ t.entries.filter (fun e => endsWithL e.1 s) :=
    List.mem_filter.mpr ⟨hmem, (endsWithL_iff _ _).mpr hsuf⟩
  refine ⟨⟨?_, ?_⟩, ?_, by decide, by decide⟩
  · intro hfound e he hesuf
    have heF : e ∈ t.entries.filter (fun e => endsWithL e.1 s) :=
      List.mem_filter.mpr ⟨he, (endsWithL_iff _ _).mpr hesuf⟩
    cases hF : t.entries.filter (fun e => endsWithL e.1 s) with
    | nil => exact absurd (hF ▸ hpaF) (List.not_mem_nil _)
    | cons x xs =>
      cases xs with
      | nil =>
        have he' : e = x := by rw [hF] at heF; simpa using heF
        have hpa' : (p, a) = x := by rw [hF] at hpaF; simpa using hpaF
        rw [he', ← hpa']
      | cons y ys =>
        rw [get_filter_many t s x y ys hF] at hfound
        exact LookupResult.noConfusion hfound
  · intro huniq
    have hFnd : (t.entries.filter (fun e => endsWithL e.1 s)).Nodup :=
      hnd.filter _
    have hFall : ∀ e ∈ t.entries.filter (fun e => endsWithL e.1 s), e = (p, a) := by
      intro e he
      rcases List.mem_filter.mp he with ⟨he1, he2⟩
      exact huniq e he1 ((endsWithL_iff _ _).mp he2)
    cases hF : t.entries.filter (fun e => endsWithL e.1 s) with
    | nil => exact absurd (hF ▸ hpaF) (List.not_mem_nil _)
    | cons x xs =>
      cases xs with
      | nil =>
        have hx : x = (p, a) := hFall x (by rw [hF]; exact List.mem_cons_self x [])
        rw [get_filter_one t s x hF, hx]
      | cons y ys =>
        have hx : x = (p, a) :=
          hFall x (by rw [hF]; exact List.mem_cons_self _ _)
        have hy : y = (p, a) :=
          hFall y (by rw [hF]; exact List.mem_cons_of_mem _ (List.mem_cons_self _ _))
        have hxy : x ≠ y := by
          rw [hF] at hFnd
          intro hcontra
          exact (List.nodup_cons.mp hFnd).1 (hcontra ▸ List.mem_cons_self y ys)
        exact absurd (hx.trans hy.symm) hxy
  · intro e₁ e₂ h1 h2 hne hs1 hs2
    have h1F : e₁ ∈ t.entries.filter (fun e => endsWithL e.1 s) :=
      List.mem_filter.mpr ⟨h1, (endsWithL_iff _ _).mpr hs1⟩
    have h2F : e₂ ∈ t.entries.filter (fun e => endsWithL e.1 s) :=
      List.mem_filter.mpr ⟨h2, (endsWithL_iff _ _).mpr hs2⟩
    refine ⟨(t.entries.filter (fun e => endsWithL e.1 s)).map (fun e => e.1),
      ?_, ?_⟩
    · cases hF : t.entries.filter (fun e => endsWithL e.1 s) with
      | nil => exact absurd (hF ▸ h1F) (List.not_mem_nil _)
      | cons x xs =>
        cases xs with
        | nil =>
          have a1 : e₁ = x := by rw [hF] at h1F; simpa using h1F
          have a2 : e₂ = x := by rw [hF] at h2F; simpa using h2F
          exact absurd (a1.trans a2.symm) hne
        | cons y ys =>
          rw [get_filter_many t s x y ys hF]
    · intro q
      simp only [List.mem_map, List.mem_filter]
      constructor
      · rintro ⟨e, ⟨heE, heW⟩, rfl⟩
        exact ⟨e, heE, rfl, (endsWithL_iff _ _).mp heW⟩
      · rintro ⟨e, heE, rfl, hu⟩
        exact ⟨e, ⟨heE, (endsWithL_iff _ _).mpr hu⟩, rfl⟩

/-- Witness for C1: the spec's two-entry scenario, queried with the
disambiguating suffix `["A#", "run"]`. -/
theorem claim_C1_witness :
    (([(["pkg/", "A#", "run"], 0), (["pkg/", "B#", "run"], (1 : Nat))] :
        List (List String × Nat)).Nodup ∧
      (["A#", "run"] : List String) ≠ [] ∧
      (∃ u, (["pkg/", "A#", "run"] : List String) = u ++ ["A#", "run"])) ∧
    (∀ e ∈ ([(["pkg/", "A#", "run"], 0), (["pkg/", "B#", "run"], (1 : Nat))] :
        List (List String × Nat)),
      (∃ u, e.1 = u ++ ["A#", "run"]) → e = (["pkg/", "A#", "run"], 0)) :=
  ⟨⟨by decide, by decide, ⟨["pkg/"], rfl⟩⟩,
    (claim_C1 ⟨[(["pkg/", "A#", "run"], 0), (["pkg/", "B#", "run"], (1 : Nat))]⟩
      ["pkg/", "A#", "run"] 0 ["A#", "run"] (by decide) (by decide) (by decide)
      ⟨["pkg/"], rfl⟩).1.mp (by decide)⟩

/-- C2: not-found behaviour.  A query whose suffix ends no indexed path
fails with `NotFound`, and on an index built from zero entries every query
fails with `NotFound`. -/
theorem claim_C2 {α : Type} :
    (∀ (t : SuffixTree α) (s : List String),
      (∀ e ∈ t.entries, ¬ ∃ u, e.1 = u ++ s) →
      t.get s = LookupResult.notFound) ∧
    (∀ s : List String,
      (SuffixTree.add_many (⟨[]⟩ : SuffixTree α) []).get s
        = LookupResult.notFound) := by
  constructor
  · intro t s h
    apply get_filter_nil
    rw [List.filter_eq_nil_iff]
    intro e he
    exact fun hc => h e he ((endsWithL_iff _ _).mp hc)
  · intro s
    rfl

/-- Witness for C2 at a one-entry index and a non-matching suffix. -/
theorem claim_C2_witness :
    (∀ e ∈ ([(["a/", "b"], (5 : Nat))] : List (List String × Nat)),
      ¬ ∃ u, e.1 = u ++ ["zz"]) ∧
    SuffixTree.get ⟨[(["a/", "b"], (5 : Nat))]⟩ ["zz"]
      = LookupResult.notFound := by
  have h : ∀ e ∈ ([(["a/", "b"], (5 : Nat))] : List (List String × Nat)),
      ¬ ∃ u, e.1 = u ++ ["zz"] := by
    intro e he hu
    have h1 : endsWithL e.1 ["zz"] = true := (endsWithL_iff _ _).mpr hu
    have h2 : e = (["a/", "b"], (5 : Nat)) := by simpa using he
    rw [h2] at h1
    exact absurd h1 (by decide)
  exact ⟨h, (claim_C2 (α := Nat)).1 ⟨[(["a/", "b"], 5)]⟩ ["zz"] h⟩

/-- Equivalence of query results up to the order of the conflicting-path
list: same payload on success, same failure kind, and permuted (hence
set-equal) conflicting paths on ambiguity. -/
def ResultEquiv {α : Type} : LookupResult α → LookupResult α → Prop
  | .found a, .found b => a = b
  | .notFound, .notFound => True
  | .ambiguous ps, .ambiguous qs => List.Perm ps qs
  | _, _ => False

/-- C3: order independence.  Building the index from any permutation of the
same entries gives, for every query, the same payload or the same error
kind, ambiguity carrying the same set of conflicting paths. -/
theorem claim_C3 {α : Type} (e₁ e₂ : List (List String × α))
    (s : List String) (h : List.Perm e₁ e₂) :
    ResultEquiv ((SuffixTree.add_many ⟨[]⟩ e₁).get s)
      ((SuffixTree.add_many ⟨[]⟩ e₂).get s) ∧
    (∀ q qs₁ qs₂,
      (SuffixTree.add_many ⟨[]⟩ e₁).get s = LookupResult.ambiguous qs₁ →
      (SuffixTree.add_many ⟨[]⟩ e₂).get s = LookupResult.ambiguous qs₂ →
      (q ∈ qs₁ ↔ q ∈ qs₂)) := by
  have ht₁ : SuffixTree.add_many (⟨[]⟩ : SuffixTree α) e₁ = ⟨e₁⟩ := rfl
  have ht₂ : SuffixTree.add_many (⟨[]⟩ : SuffixTree α) e₂ = ⟨e₂⟩ := rfl
  rw [ht₁, ht₂]
  have hF : List.Perm (e₁.filter (fun e => endsWithL e.1 s))
      (e₂.filter (fun e => endsWithL e.1 s)) := h.filter _
  have hmain : ResultEquiv ((⟨e₁⟩ : SuffixTree α).get s)
      ((⟨e₂⟩ : SuffixTree α).get s) := by
    cases hF₁ : e₁.filter (fun e => endsWithL e.1 s) with
    | nil =>
      have hF₂ : e₂.filter (fun e => endsWithL e.1 s) = [] := by
        rw [hF₁] at hF
        exact hF.symm.eq_nil
      rw [get_filter_nil ⟨e₁⟩ s hF₁, get_filter_nil ⟨e₂⟩ s hF₂]
      trivial
    | cons x xs =>
      cases xs with
      | nil =>
        have hF₂ : e₂.filter (fun e => endsWithL e.1 s) = [x] := by
          rw [hF₁] at hF
          exact (List.perm_singleton.mp hF.symm)
        rw [get_filter_one ⟨e₁⟩ s x hF₁, get_filter_one ⟨e₂⟩ s x hF₂]
        show x.2 = x.2
        rfl
      | cons y ys =>
        rw [hF₁] at hF
        cases hF₂ : e₂.filter (fun e => endsWithL e.1 s) with
        | nil =>
          rw [hF₂] at hF
          exact absurd hF.length_eq (by simp)
        | cons x' xs' =>
          cases xs' with
          | nil =>
            rw [hF₂] at hF
            exact absurd hF.length_eq (by simp)
          | cons y' ys' =>
            rw [hF₂] at hF
            rw [get_filter_many ⟨e₁⟩ s x y ys hF₁,
              get_filter_many ⟨e₂⟩ s x' y' ys' hF₂]
            exact hF.map (fun e => e.1)
  refine ⟨hmain, ?_⟩
  intro q qs₁ qs₂ hq₁ hq₂
  rw [hq₁, hq₂] at hmain
  exact (List.Perm.mem_iff hmain)

/-- Witness for C3: two entries presented in the two possible orders. -/
theorem claim_C3_witness :
    List.Perm ([(["pkg/", "A#", "run"], 0), (["pkg/", "B#", "run"], (1 : Nat))])
      ([(["pkg/", "B#", "run"], 1), (["pkg/", "A#", "run"], (0 : Nat))]) ∧
    ResultEquiv
      ((SuffixTree.add_many ⟨[]⟩
        [(["pkg/", "A#", "run"], 0), (["pkg/", "B#", "run"], (1 : Nat))]).get ["run"])
      ((SuffixTree.add_many ⟨[]⟩
        [(["pkg/", "B#", "run"], 1), (["pkg/", "A#", "run"], (0 : Nat))]).get ["run"]) :=
  ⟨List.Perm.swap _ _ _,
    (claim_C3 [(["pkg/", "A#", "run"], 0), (["pkg/", "B#", "run"], (1 : Nat))]
      [(["pkg/", "B#", "run"], 1), (["pkg/", "A#", "run"], 0)] ["run"]
      (List.Perm.swap _ _ _)).1⟩

/-- C10: `Analyzer.get_object` ignores its `as_type` argument; its result
is a function of the path suffix and the object index alone. -/
theorem claim_C10 (a : Analyzer) (s : List String) (t₁ t₂ : AsType) :
    a.get_object s t₁ = a.get_object s t₂ ∧
    a.get_object s t₁ = a.objects_by_path.get s :=
  ⟨rfl, rfl⟩

/-! ## Characterisation of the module-building fold -/

/-- The sub-sequence of included records with the given grouping key and
kind tag, in original corpus order. -/
def bucketFilter (included : List TopLevel) (k : String) (kd : Kind) :
    List TopLevel :=
  included.filter (fun o => decide (o.deppath = k ∧ o.kind = kd))

/-- The module the loop of `_create_modules` accumulates for key `k` after
processing `included`, before the final sorting pass. -/
def moduleFor (k : String) (included : List TopLevel) : Module :=
  { filename := k, deppath := k, path := pathparts k, line := 1,
    attributes := bucketFilter included k Kind.attribute,
    functions := bucketFilter included k Kind.function,
    classes := bucketFilter included k Kind.class_,
    interfaces := bucketFilter included k Kind.interface,
    type_aliases := bucketFilter included k Kind.typeAlias }

theorem bucketOf_moduleFor (k : String) (included : List TopLevel) (kd : Kind) :
    bucketOf (moduleFor k included) kd = bucketFilter included k kd := by
  cases kd <;> rfl

theorem bucketOf_sortModule (m : Module) (kd : Kind) :
    bucketOf (sortModule m) kd = isortByName (bucketOf m kd) := by
  cases kd <;> rfl

theorem moduleFor_nil (k : String) : moduleFor k [] = newModule k := rfl

theorem moduleFor_snoc_ne (k : String) (included : List TopLevel)
    (obj : TopLevel) (h : obj.deppath ≠ k) :
    moduleFor k (included ++ [obj]) = moduleFor k included := by
  simp [moduleFor, bucketFilter, List.filter_append, h]

theorem moduleFor_snoc_eq (included : List TopLevel) (obj : TopLevel) :
    moduleFor obj.deppath (included ++ [obj]) =
      routeObj obj (moduleFor obj.deppath included) := by
  cases hk : obj.kind <;>
    simp [moduleFor, routeObj, setBucket, bucketOf, bucketFilter,
      List.filter_append, hk]

theorem moduleFor_of_absent (k : String) (included : List TopLevel)
    (h : ∀ o ∈ included, o.deppath ≠ k) :
    moduleFor k included = newModule k := by
  have hf : ∀ kd, bucketFilter included k kd = [] := by
    intro kd
    rw [bucketFilter, List.filter_eq_nil_iff]
    intro o ho
    simp [h o ho]
  simp [moduleFor, newModule, hf]

theorem map_fst_update (mods : List (String × Module)) (d : String)
    (f : Module → Module) :
    ((mods.map (fun p => if p.1 = d then (p.1, f p.2) else p)).map Prod.fst) =
      mods.map Prod.fst := by
  rw [List.map_map]
  apply List.map_congr_left
  intro p hp
  by_cases hpd : p.1 = d <;> simp [hpd, Function.comp]

theorem stepModule_inv (pre : List TopLevel) (mods : List (String × Module))
    (obj : TopLevel)
    (hnd : (mods.map Prod.fst).Nodup)
    (hkeys : ∀ k, k ∈ mods.map Prod.fst ↔ k ∈ pre.map (fun o => o.deppath))
    (hval : ∀ q ∈ mods, q.2 = moduleFor q.1 pre) :
    ((stepModule mods obj).map Prod.fst).Nodup ∧
    (∀ k, k ∈ (stepModule mods obj).map Prod.fst ↔
      k ∈ (pre ++ [obj]).map (fun o => o.deppath)) ∧
    (∀ q ∈ stepModule mods obj, q.2 = moduleFor q.1 (pre ++ [obj])) := by
  have hupdate : ∀ (L : List (String × Module)),
      (∀ q ∈ L, q.2 = moduleFor q.1 pre) →
      ∀ q ∈ L.map (fun p =>
        if p.1 = obj.deppath then (p.1, routeObj obj p.2) else p),
      q.2 = moduleFor q.1 (pre ++ [obj]) := by
    intro L hL q hq
    rcases List.mem_map.mp hq with ⟨p, hp, rfl⟩
    by_cases hpd : p.1 = obj.deppath
    · rw [if_pos hpd]
      show routeObj obj p.2 = moduleFor p.1 (pre ++ [obj])
      rw [hL p hp, hpd, moduleFor_snoc_eq]
    · rw [if_neg hpd]
      show p.2 = moduleFor p.1 (pre ++ [obj])
      rw [hL p hp, moduleFor_snoc_ne _ _ _ (fun h => hpd h.symm)]
  have hAiff : (mods.any (fun p => p.1 == obj.deppath) = true) ↔
      obj.deppath ∈ mods.map Prod.fst := by
    rw [List.any_eq_true]
    constructor
    · rintro ⟨p, hp, h⟩
      exact List.mem_map.mpr ⟨p, hp, beq_iff_eq.mp h⟩
    · intro h
      rcases List.mem_map.mp h with ⟨p, hp, h⟩
      exact ⟨p, hp, beq_iff_eq.mpr h⟩
  by_cases hA : mods.any (fun p => p.1 == obj.deppath) = true
  · have hin : obj.deppath ∈ mods.map Prod.fst := hAiff.mp hA
    have hstep : stepModule mods obj = mods.map (fun p =>
        if p.1 = obj.deppath then (p.1, routeObj obj p.2) else p) := by
      unfold stepModule
      rw [if_pos hA]
    refine ⟨?_, ?_, ?_⟩
    · rw [hstep, map_fst_update]
      exact hnd
    · intro k
      rw [hstep, map_fst_update, hkeys k, List.map_append, List.mem_append]
      simp only [List.map_cons, List.map_nil, List.mem_singleton]
      constructor
      · exact Or.inl
      · rintro (h | h)
        · exact h
        · rw [h]
          exact (hkeys obj.deppath).mp hin
    · rw [hstep]
      exact hupdate mods hval
  · have hnin : obj.deppath ∉ mods.map Prod.fst := fun h => hA (hAiff.mpr h)
    have hstep : stepModule mods obj =
        (mods ++ [(obj.deppath, newModule obj.deppath)]).map (fun p =>
          if p.1 = obj.deppath then (p.1, routeObj obj p.2) else p) := by
      unfold stepModule
      rw [if_neg hA]
    have habs : ∀ o ∈ pre, o.deppath ≠ obj.deppath := by
      intro o ho h
      exact hnin ((hkeys obj.deppath).mpr (List.mem_map.mpr ⟨o, ho, h⟩))
    have hL' : ∀ q ∈ mods ++ [(obj.deppath, newModule obj.deppath)],
        q.2 = moduleFor q.1 pre := by
      intro q hq
      rcases List.mem_append.mp hq with hq | hq
      · exact hval q hq
      · rw [List.mem_singleton.mp hq]
        exact (moduleFor_of_absent _ _ habs).symm
    refine ⟨?_, ?_, ?_⟩
    · rw [hstep, map_fst_update, List.map_append]
      simp only [List.map_cons, List.map_nil]
      rw [List.nodup_append]
      refine ⟨hnd, List.nodup_singleton _, ?_⟩
      intro a ha hb
      rw [List.mem_singleton.mp hb] at ha
      exact hnin ha
    · intro k
      rw [hstep, map_fst_update]
      simp only [List.map_append, List.mem_append, hkeys k, List.map_cons,
        List.map_nil]
    · rw [hstep]
      exact hupdate _ hL'

theorem foldl_stepModule_inv (rest : List TopLevel) :
    ∀ (pre : List TopLevel) (mods : List (String × Module)),
    (mods.map Prod.fst).Nodup →
    (∀ k, k ∈ mods.map Prod.fst ↔ k ∈ pre.map (fun o => o.deppath)) →
    (∀ q ∈ mods, q.2 = moduleFor q.1 pre) →
    ((rest.foldl stepModule mods).map Prod.fst).Nodup ∧
    (∀ k, k ∈ (rest.foldl stepModule mods).map Prod.fst ↔
      k ∈ (pre ++ rest).map (fun o => o.deppath)) ∧
    (∀ q ∈ rest.foldl stepModule mods, q.2 = moduleFor q.1 (pre ++ rest)) := by
  induction rest with
  | nil =>
    intro pre mods h1 h2 h3
    simp only [List.foldl_nil, List.append_nil]
    exact ⟨h1, h2, h3⟩
  | cons obj rest' ih =>
    intro pre mods h1 h2 h3
    obtain ⟨s1, s2, s3⟩ := stepModule_inv pre mods obj h1 h2 h3
    have h := ih (pre ++ [obj]) (stepModule mods obj) s1 s2 s3
    simpa [List.foldl_cons, List.append_assoc] using h

theorem create_modules_inv (objects : List TopLevel) :
    (((_get_toplevel_objects objects).foldl stepModule []).map Prod.fst).Nodup ∧
    (∀ k, k ∈ ((_get_toplevel_objects objects).foldl stepModule []).map
        Prod.fst ↔ k ∈ (_get_toplevel_objects objects).map
        (fun o => o.deppath)) ∧
    (∀ q ∈ (_get_toplevel_objects objects).foldl stepModule [],
      q.2 = moduleFor q.1 (_get_toplevel_objects objects)) := by
  have h := foldl_stepModule_inv (_get_toplevel_objects objects) [] []
    (by simp) (by simp) (by simp)
  simpa only [List.nil_append] using h

theorem mem_create_modules_iff (objects : List TopLevel) (m : Module) :
    m ∈ _create_modules objects ↔
    ((∃ o ∈ _get_toplevel_objects objects, o.deppath = m.deppath) ∧
      m = sortModule (moduleFor m.deppath (_get_toplevel_objects objects))) := by
  obtain ⟨hnd, hkeys, hval⟩ := create_modules_inv objects
  unfold _create_modules
  constructor
  · intro hm
    rcases List.mem_map.mp hm with ⟨q, hq, rfl⟩
    have hq2 : q.2 = moduleFor q.1 (_get_toplevel_objects objects) := hval q hq
    have hdep : (sortModule q.2).deppath = q.1 := by rw [hq2]; rfl
    constructor
    · have hk : q.1 ∈ ((_get_toplevel_objects objects).foldl stepModule
          []).map Prod.fst := List.mem_map.mpr ⟨q, hq, rfl⟩
      rcases List.mem_map.mp ((hkeys q.1).mp hk) with ⟨o, ho, hod⟩
      exact ⟨o, ho, by rw [hdep]; exact hod⟩
    · show sortModule q.2 = sortModule (moduleFor (sortModule q.2).deppath _)
      rw [hdep, hq2]
  · rintro ⟨⟨o, ho, hod⟩, heq⟩
    have hk : m.deppath ∈ ((_get_toplevel_objects objects).foldl stepModule
        []).map Prod.fst :=
      (hkeys m.deppath).mpr (List.mem_map.mpr ⟨o, ho, hod⟩)
    rcases List.mem_map.mp hk with ⟨q, hq, hq1⟩
    have hqm : (fun p => sortModule p.2) q = m := by
      show sortModule q.2 = m
      rw [hval q hq, hq1, ← heq]
    exact List.mem_map.mpr ⟨q, hq, hqm⟩

/-! ## The stable sort by display name -/

theorem insertName_perm (x : TopLevel) (l : List TopLevel) :
    List.Perm (insertName x l) (x :: l) := by
  induction l with
  | nil => exact List.Perm.refl _
  | cons y ys ih =>
    unfold insertName
    split
    · exact (ih.cons y).trans (List.Perm.swap x y ys)
    · exact List.Perm.refl _

theorem mem_insertName (x z : TopLevel) (l : List TopLevel) :
    z ∈ insertName x l ↔ z = x ∨ z ∈ l := by
  rw [(insertName_perm x l).mem_iff, List.mem_cons]

theorem insertName_pairwise (x : TopLevel) (l : List TopLevel)
    (h : List.Pairwise (fun a b => a.name ≤ b.name) l) :
    List.Pairwise (fun a b => a.name ≤ b.name) (insertName x l) := by
  induction l with
  | nil => simp [insertName]
  | cons y ys ih =>
    rcases List.pairwise_cons.mp h with ⟨hy, hys⟩
    unfold insertName
    split
    next hc =>
      refine List.pairwise_cons.mpr ⟨?_, ih hys⟩
      intro z hz
      rcases (mem_insertName x z ys).mp hz with rfl | hz'
      · exact le_of_lt ((lexLt_data_iff _ _).mp hc)
      · exact hy z hz'
    next hc =>
      refine List.pairwise_cons.mpr ⟨?_, h⟩
      intro z hz
      have hxy : x.name ≤ y.name :=
        le_of_not_lt (fun hlt => hc ((lexLt_data_iff _ _).mpr hlt))
      rcases List.mem_cons.mp hz with rfl | hz'
      · exact hxy
      · exact le_trans hxy (hy z hz')

theorem isortByName_perm (l : List TopLevel) :
    List.Perm (isortByName l) l := by
  induction l with
  | nil => exact List.Perm.refl _
  | cons x xs ih =>
    exact (insertName_perm x (isortByName xs)).trans (ih.cons x)

theorem isortByName_pairwise (l : List TopLevel) :
    List.Pairwise (fun a b => a.name ≤ b.name) (isortByName l) := by
  induction l with
  | nil => simp [isortByName]
  | cons x xs ih => exact insertName_pairwise x _ ih

theorem insertName_filter (x : TopLevel) (l : List TopLevel) (n : String) :
    (insertName x l).filter (fun o => decide (o.name = n)) =
      if x.name = n then x :: l.filter (fun o => decide (o.name = n))
      else l.filter (fun o => decide (o.name = n)) := by
  induction l with
  | nil =>
    by_cases hx : x.name = n <;> simp [insertName, hx]
  | cons y ys ih =>
    unfold insertName
    split
    next hc =>
      by_cases hx : x.name = n
      · have hy : y.name ≠ n := by
          intro hyn
          have hlt : y.name < x.name := (lexLt_data_iff _ _).mp hc
          rw [hyn, hx] at hlt
          exact lt_irrefl _ hlt
        simp [List.filter_cons, hx, hy, ih]
      · simp [List.filter_cons, hx, ih]
    next hc =>
      by_cases hx : x.name = n <;> simp [List.filter_cons, hx]

theorem isortByName_filter (l : List TopLevel) (n : String) :
    (isortByName l).filter (fun o => decide (o.name = n)) =
      l.filter (fun o => decide (o.name = n)) := by
  induction l with
  | nil => rfl
  | cons x xs ih =>
    show (insertName x (isortByName xs)).filter _ = _
    rw [insertName_filter, List.filter_cons]
    by_cases hx : x.name = n <;> simp [hx, ih]

/-! ## Bucket membership in created modules -/

theorem bucketOf_eq_isort (objects : List TopLevel) (m : Module)
    (hm : m ∈ _create_modules objects) (k : Kind) :
    bucketOf m k =
      isortByName (bucketFilter (_get_toplevel_objects objects) m.deppath k) := by
  obtain ⟨-, heq⟩ := (mem_create_modules_iff objects m).mp hm
  conv_lhs => rw [heq]
  rw [bucketOf_sortModule, bucketOf_moduleFor]

theorem mem_bucketOf_iff (objects : List TopLevel) (m : Module)
    (hm : m ∈ _create_modules objects) (k : Kind) (o : TopLevel) :
    o ∈ bucketOf m k ↔
      (o ∈ objects ∧ o.documentation_root = true ∧ o.deppath = m.deppath ∧
        o.kind = k) := by
  rw [bucketOf_eq_isort objects m hm k, (isortByName_perm _).mem_iff]
  unfold bucketFilter _get_toplevel_objects
  rw [List.mem_filter, List.mem_filter]
  simp [and_assoc]

theorem mem_modules_deppath_inj (objects : List TopLevel) (m₁ m₂ : Module)
    (h₁ : m₁ ∈ _create_modules objects) (h₂ : m₂ ∈ _create_modules objects)
    (h : m₁.deppath = m₂.deppath) : m₁ = m₂ := by
  obtain ⟨-, e₁⟩ := (mem_create_modules_iff objects m₁).mp h₁
  obtain ⟨-, e₂⟩ := (mem_create_modules_iff objects m₂).mp h₂
  rw [e₁, e₂, h]

/-! ## Claims about module grouping -/

/-- C7: `_create_modules` partitions the included corpus records by their
slash-delimited logical file path, and every bucket of every produced
module is sorted by lexical string order on the display name, ties broken
by original corpus order (the bucket's records of any fixed name stay in
corpus order). -/
theorem claim_C7 (objects : List TopLevel) (m : Module)
    (hm : m ∈ _create_modules objects) (k : Kind) :
    List.Pairwise (fun a b => a.name ≤ b.name) (bucketOf m k) ∧
    List.Perm (bucketOf m k)
      ((objects.filter (fun o => o.documentation_root)).filter
        (fun o => decide (o.deppath = m.deppath ∧ o.kind = k))) ∧
    (∀ n, (bucketOf m k).filter (fun o => decide (o.name = n)) =
      ((objects.filter (fun o => o.documentation_root)).filter
        (fun o => decide (o.deppath = m.deppath ∧ o.kind = k))).filter
        (fun o => decide (o.name = n))) := by
  have hb := bucketOf_eq_isort objects m hm k
  refine ⟨?_, ?_, ?_⟩
  · rw [hb]
    exact isortByName_pairwise _
  · rw [hb]
    exact isortByName_perm _
  · intro n
    rw [hb, isortByName_filter]
    rfl

/-- Witness for C7: a one-record corpus and its single module. -/
theorem claim_C7_witness :
    ((⟨"f", "f", ["f"], 1, [],
        [⟨["f/", "x"], "x", Kind.function, true, "f"⟩], [], [], []⟩ : Module) ∈
      _create_modules [⟨["f/", "x"], "x", Kind.function, true, "f"⟩]) ∧
    List.Pairwise (fun a b => a.name ≤ b.name)
      (bucketOf (⟨"f", "f", ["f"], 1, [],
        [⟨["f/", "x"], "x", Kind.function, true, "f"⟩], [], [], []⟩ : Module)
        Kind.function) := by
  refine ⟨by decide, ?_⟩
  exact (claim_C7 [⟨["f/", "x"], "x", Kind.function, true, "f"⟩]
    ⟨"f", "f", ["f"], 1, [],
      [⟨["f/", "x"], "x", Kind.function, true, "f"⟩], [], [], []⟩
    (by decide) Kind.function).1

/-- C8: a corpus record lands in a bucket of some produced module iff its
`documentation_root` flag is set, and an included record is routed by its
kind tag into exactly the matching bucket of the module keyed by its
deppath. -/
theorem claim_C8 (objects : List TopLevel) (o : TopLevel) (ho : o ∈ objects) :
    (o.documentation_root = false →
      ∀ m ∈ _create_modules objects, ∀ k, o ∉ bucketOf m k) ∧
    (o.documentation_root = true →
      (∃ m ∈ _create_modules objects, m.deppath = o.deppath ∧
        o ∈ bucketOf m o.kind) ∧
      (∀ m ∈ _create_modules objects, ∀ k, o ∈ bucketOf m k →
        m.deppath = o.deppath ∧ k = o.kind)) := by
  refine ⟨?_, ?_⟩
  · intro hroot m hm k hmem
    have h := (mem_bucketOf_iff objects m hm k o).mp hmem
    have h2 := h.2.1
    rw [hroot] at h2
    exact Bool.noConfusion h2
  · intro hroot
    have hoincl : o ∈ _get_toplevel_objects objects :=
      List.mem_filter.mpr ⟨ho, hroot⟩
    have hm : sortModule (moduleFor o.deppath (_get_toplevel_objects objects))
        ∈ _create_modules objects := by
      rw [mem_create_modules_iff]
      exact ⟨⟨o, hoincl, rfl⟩, rfl⟩
    constructor
    · refine ⟨sortModule (moduleFor o.deppath (_get_toplevel_objects objects)),
        hm, rfl, ?_⟩
      rw [mem_bucketOf_iff objects _ hm o.kind o]
      exact ⟨ho, hroot, rfl, rfl⟩
    · intro m hm' k hmem
      have h := (mem_bucketOf_iff objects m hm' k o).mp hmem
      exact ⟨h.2.2.1.symm, h.2.2.2.symm⟩

/-- Witness for C8: the one-record corpus, whose record is included. -/
theorem claim_C8_witness :
    ((⟨["f/", "x"], "x", Kind.function, true, "f"⟩ : TopLevel) ∈
      [(⟨["f/", "x"], "x", Kind.function, true, "f"⟩ : TopLevel)]) ∧
    (∃ m ∈ _create_modules
        [(⟨["f/", "x"], "x", Kind.function, true, "f"⟩ : TopLevel)],
      m.deppath = "f" ∧
        (⟨["f/", "x"], "x", Kind.function, true, "f"⟩ : TopLevel) ∈
          bucketOf m Kind.function) := by
  refine ⟨by decide, ?_⟩
  exact ((claim_C8 [⟨["f/", "x"], "x", Kind.function, true, "f"⟩]
    ⟨["f/", "x"], "x", Kind.function, true, "f"⟩ (by decide)).2 (by decide)).1

/-- C9: `_create_modules` produces exactly one module per distinct deppath
among the included records, each module's path is its deppath split on
`"/"` with the separator re-appended to every part but the last, and every
included record lies in exactly one bucket of exactly one module. -/
theorem claim_C9 (objects : List TopLevel) :
    ((_create_modules objects).map (fun m => m.deppath)).Nodup ∧
    (∀ d, (∃ m ∈ _create_modules objects, m.deppath = d) ↔
      (∃ o ∈ objects, o.documentation_root = true ∧ o.deppath = d)) ∧
    (∀ m ∈ _create_modules objects, m.path = pathparts m.deppath) ∧
    (∀ o ∈ objects, o.documentation_root = true →
      ∃ m k, (m ∈ _create_modules objects ∧ o ∈ bucketOf m k) ∧
        (∀ m' k', m' ∈ _create_modules objects → o ∈ bucketOf m' k' →
          m' = m ∧ k' = k)) := by
  obtain ⟨hnd, hkeys, hval⟩ := create_modules_inv objects
  refine ⟨?_, ?_, ?_, ?_⟩
  · have hmapeq : (_create_modules objects).map (fun m => m.deppath) =
        ((_get_toplevel_objects objects).foldl stepModule []).map Prod.fst := by
      unfold _create_modules
      rw [List.map_map]
      apply List.map_congr_left
      intro q hq
      show (sortModule q.2).deppath = q.1
      rw [hval q hq]
      rfl
    rw [hmapeq]
    exact hnd
  · intro d
    constructor
    · rintro ⟨m, hm, rfl⟩
      obtain ⟨⟨o, ho, hod⟩, -⟩ := (mem_create_modules_iff objects m).mp hm
      rcases List.mem_filter.mp ho with ⟨ho1, ho2⟩
      exact ⟨o, ho1, ho2, hod⟩
    · rintro ⟨o, ho, hroot, hod⟩
      have hoincl : o ∈ _get_toplevel_objects objects :=
        List.mem_filter.mpr ⟨ho, hroot⟩
      refine ⟨sortModule (moduleFor d (_get_toplevel_objects objects)),
        ?_, rfl⟩
      rw [mem_create_modules_iff]
      exact ⟨⟨o, hoincl, hod⟩, rfl⟩
  · intro m hm
    obtain ⟨-, heq⟩ := (mem_create_modules_iff objects m).mp hm
    conv_lhs => rw [heq]
    rfl
  · intro o ho hroot
    have hoincl : o ∈ _get_toplevel_objects objects :=
      List.mem_filter.mpr ⟨ho, hroot⟩
    have hm : sortModule (moduleFor o.deppath (_get_toplevel_objects objects))
        ∈ _create_modules objects := by
      rw [mem_create_modules_iff]
      exact ⟨⟨o, hoincl, rfl⟩, rfl⟩
    refine ⟨sortModule (moduleFor o.deppath (_get_toplevel_objects objects)),
      o.kind, ⟨hm, ?_⟩, ?_⟩
    · rw [mem_bucketOf_iff objects _ hm o.kind o]
      exact ⟨ho, hroot, rfl, rfl⟩
    · intro m' k' hm' hmem
      have h := (mem_bucketOf_iff objects m' hm' k' o).mp hmem
      constructor
      · apply mem_modules_deppath_inj objects m' _ hm' hm
        exact h.2.2.1.symm
      · exact h.2.2.2.symm

/-- Witness for C9: the one-record corpus and its included record. -/
theorem claim_C9_witness :
    ((⟨["f/", "x"], "x", Kind.function, true, "f"⟩ : TopLevel) ∈
      [(⟨["f/", "x"], "x", Kind.function, true, "f"⟩ : TopLevel)]) ∧
    (⟨["f/", "x"], "x", Kind.function, true, "f"⟩ :
      TopLevel).documentation_root = true ∧
    (∃ m k, (m ∈ _create_modules
        [(⟨["f/", "x"], "x", Kind.function, true, "f"⟩ : TopLevel)] ∧
        (⟨["f/", "x"], "x", Kind.function, true, "f"⟩ : TopLevel) ∈
          bucketOf m k) ∧
      (∀ m' k', m' ∈ _create_modules
          [(⟨["f/", "x"], "x", Kind.function, true, "f"⟩ : TopLevel)] →
        (⟨["f/", "x"], "x", Kind.function, true, "f"⟩ : TopLevel) ∈
          bucketOf m' k' → m' = m ∧ k' = k)) := by
  refine ⟨by decide, by decide, ?_⟩
  exact (claim_C9 [⟨["f/", "x"], "x", Kind.function, true, "f"⟩]).2.2.2
    ⟨["f/", "x"], "x", Kind.function, true, "f"⟩ (by decide) (by decide)

/-! ## Claims about the path model -/

theorem str_startswith_iff (s p : String) :
    str_startswith s p = true ↔ ∃ r, s = p ++ r := by
  unfold str_startswith
  rw [startsWithL_iff]
  constructor
  · rintro ⟨t, ht⟩
    refine ⟨String.mk t, ?_⟩
    apply congrArg String.mk
    exact ht
  · rintro ⟨r, rfl⟩
    exact ⟨r.data, String.data_append p r⟩

/-- C4: the `dotted_path` contract.  The empty sequence renders as the
empty string; otherwise non-last relative-marker segments are dropped,
every other non-last segment loses exactly its final character, the last
segment is kept verbatim and the tokens are joined with dots — stated as
agreement with the recursive `dotted_path_spec` built from the spec's
wording — and the two concrete examples hold. -/
theorem claim_C4 :
    dotted_path [] = "" ∧
    (∀ segments, dotted_path segments = dotted_path_spec segments) ∧
    dotted_path ["a/", "b/", "C#", "m"] = "a.b.C.m" ∧
    dotted_path ["./", "dir/", "file"] = "dir.file" :=
  ⟨rfl, dotted_path_eq_spec, by decide, by decide⟩

/-- C5: `is_explicitly_rooted` returns true exactly for strings beginning
with `"./"` or `"../"` or equal to `"."` or `".."`, with the five concrete
examples of the spec. -/
theorem claim_C5 :
    (∀ path : String, is_explicitly_rooted path = true ↔
      ((∃ r, path = "./" ++ r) ∨ (∃ r, path = "../" ++ r) ∨
        path = "." ∨ path = "..")) ∧
    is_explicitly_rooted "./x" = true ∧
    is_explicitly_rooted "../x" = true ∧
    is_explicitly_rooted ".." = true ∧
    is_explicitly_rooted "x/y" = false ∧
    is_explicitly_rooted "" = false := by
  refine ⟨?_, by decide, by decide, by decide, by decide, by decide⟩
  intro path
  unfold is_explicitly_rooted
  simp only [Bool.or_eq_true, beq_iff_eq, str_startswith_iff]
  constructor
  · rintro ((⟨r, h⟩ | ⟨r, h⟩) | (h | h))
    · exact Or.inr (Or.inl ⟨r, h⟩)
    · exact Or.inl ⟨r, h⟩
    · exact Or.inr (Or.inr (Or.inr h))
    · exact Or.inr (Or.inr (Or.inl h))
  · rintro (⟨r, h⟩ | ⟨r, h⟩ | h | h)
    · exact Or.inl (Or.inr ⟨r, h⟩)
    · exact Or.inl (Or.inl ⟨r, h⟩)
    · exact Or.inr (Or.inr h)
    · exact Or.inr (Or.inl h)

/-- Occurrence of two consecutive dot characters in a character list. -/
def containsDD : List Char → Bool
  | [] => false
  | [_] => false
  | a :: b :: rest =>
    (decide (a = Char.ofNat 46) && decide (b = Char.ofNat 46)) ||
      containsDD (b :: rest)

/-- Occurrence of a doubled dot in a string. -/
def hasDoubledDot (s : String) : Bool :=
  containsDD s.data

theorem dotted_path_markers (ms rest : List String)
    (h2 : rest ≠ []) :
    (∀ m ∈ ms, m = "./" ∨ m = "../") →
    dotted_path (ms ++ rest) = dotted_path rest := by
  induction ms with
  | nil => intro _; rfl
  | cons m ms ih =>
    intro h1
    have hm := h1 m (List.mem_cons_self m ms)
    have htail : ms ++ rest ≠ [] := fun hc => h2 (List.append_eq_nil.mp hc).2
    cases hq : ms ++ rest with
    | nil => exact absurd hq htail
    | cons t rest' =>
      rw [List.cons_append, hq, dotted_path_cons_cons, if_pos hm, ← hq,
        ih (fun x hx => h1 x (List.mem_cons_of_mem _ hx))]

/-- Counterexample to C6 as stated: in `["./", ".hidden"]` every leading
(non-last) segment is a relative-directory marker, yet the rendered dotted
string `".hidden"` begins with a dot. -/
theorem claim_C6_counterexample :
    (∀ m ∈ (["./", ".hidden"] : List String).dropLast,
      m = "./" ∨ m = "../") ∧
    dotted_path ["./", ".hidden"] = ".hidden" ∧
    str_startswith (dotted_path ["./", ".hidden"]) "." = true :=
  ⟨by decide, by decide, by decide⟩

/-- C6 (amended): leading relative-marker segments followed by at least one
further segment contribute nothing to the rendered dotted string; hence
they never introduce a leading dot or doubled dots — the rendering of the
marker-led sequence begins with a dot, or contains a doubled dot, only if
the rendering of the remainder already does. -/
theorem claim_C6 (ms rest : List String)
    (h1 : ∀ m ∈ ms, m = "./" ∨ m = "../") (h2 : rest ≠ []) :
    dotted_path (ms ++ rest) = dotted_path rest ∧
    (str_startswith (dotted_path rest) "." = false →
      str_startswith (dotted_path (ms ++ rest)) "." = false) ∧
    (hasDoubledDot (dotted_path rest) = false →
      hasDoubledDot (dotted_path (ms ++ rest)) = false) := by
  have heq := dotted_path_markers ms rest h2 h1
  refine ⟨heq, ?_, ?_⟩
  · intro h
    rw [heq]
    exact h
  · intro h
    rw [heq]
    exact h

/-- Witness for C6 (amended) at two markers and a two-segment remainder. -/
theorem claim_C6_witness :
    ((∀ m ∈ (["./", "../"] : List String), m = "./" ∨ m = "../") ∧
      (["a/", "foo"] : List String) ≠ []) ∧
    dotted_path (["./", "../"] ++ ["a/", "foo"]) = dotted_path ["a/", "foo"] := by
  refine ⟨⟨by decide, by decide⟩, ?_⟩
  exact (claim_C6 ["./", "../"] ["a/", "foo"] (by decide) (by decide)).1

end SphinxJs
